import Mathlib

/-!
Verification development for the git-repository-visualizer analytics and
persistence code.  Go functions are shallowly embedded as Lean functions:
SQL aggregation queries are modelled as pure list transformations over the
row sets they read, machine integers as `Nat`/`Int`, and float arithmetic
(which here only forms exact sums, products and comparisons of small
quantities, plus `math.Log1p` and `math.Round`) as exact `ℚ`/`ℝ`
arithmetic.  File names and identities are modelled as `String`s; file
contents for the line scanner are modelled as the list of lengths of their
newline-delimited segments.
-/

namespace RepoStats

/-! ### Bus factor (internal/stats/bus_factor.go)

The SQL query builds `file_contributions` (grouping `commit_files` joined
with `commits` by `(file_path, author_email, author_name)`, summing
`additions`), then `file_owners` (`DISTINCT ON (file_path) ... WHERE
total_additions > 0 ORDER BY file_path, total_additions DESC` — one row
per path, a row of maximal total; which of several tied maxima is kept is
not determined by the query, so the embedding keeps the first row in scan
order, one realisable engine behaviour), and finally groups owners by
`(author_email, author_name)` counting owned files.  The Go code then
computes percentages, sorts by files owned descending (`sort.Slice`,
unstable — modelled by insertion sort, again one realisable order) and
runs the accumulation loop. -/

/-- Joined row of `commit_files` × `commits` relevant to the bus factor
query: one change event with its author identity. -/
structure CFEvent where
  path : String
  email : String
  name : String
  additions : Int
deriving DecidableEq

/-- Row of the `file_contributions` CTE. -/
structure FCRow where
  path : String
  email : String
  name : String
  total : Int
deriving DecidableEq

/-- Distinct `(file_path, author_email, author_name)` grouping keys, in scan
order. -/
def contribKeys (evs : List CFEvent) : List (String × String × String) :=
  (evs.map fun e => (e.path, e.email, e.name)).dedup

/-- Value of `SUM(cf.additions)` for one grouping key. -/
def sumAdds (evs : List CFEvent) (k : String × String × String) : Int :=
  ((evs.filter fun e => decide ((e.path, e.email, e.name) = k)).map (·.additions)).sum

/-- The `file_contributions` CTE: per `(path, email, name)` group, the total
additions. -/
def fileContributions (evs : List CFEvent) : List FCRow :=
  (contribKeys evs).map fun k => ⟨k.1, k.2.1, k.2.2, sumAdds evs k⟩

/-- Scan for a row of maximal `total`, keeping the earlier row on ties. -/
def bestRowFrom (b : FCRow) : List FCRow → FCRow
  | [] => b
  | r :: rs => if b.total < r.total then bestRowFrom r rs else bestRowFrom b rs

/-- First row of maximal `total` in scan order (the row `DISTINCT ON`
retains under `ORDER BY total_additions DESC` when the engine sort is
stable). -/
def bestRow : List FCRow → Option FCRow
  | [] => none
  | r :: rs => some (bestRowFrom r rs)

/-- The `file_owners` row for path `p`: best row among the positive-total
contributions to `p`. -/
def ownerFor (rows : List FCRow) (p : String) : Option FCRow :=
  bestRow (rows.filter fun r => decide (r.path = p ∧ 0 < r.total))

/-- Distinct file paths of the contribution rows, in scan order. -/
def ownedPaths (rows : List FCRow) : List String :=
  (rows.map (·.path)).dedup

/-- The `file_owners` CTE: one owning row per path that has a
positive-total contribution. -/
def fileOwners (rows : List FCRow) : List FCRow :=
  (ownedPaths rows).filterMap (ownerFor rows)

/-- Go struct `ContributorOwnership`. -/
structure ContributorOwnership where
  email : String
  name : String
  filesOwned : Nat
  ownershipPct : ℚ
deriving DecidableEq

/-- Distinct owner identities `(author_email, author_name)`, in scan
order. -/
def ownerIdents (owners : List FCRow) : List (String × String) :=
  (owners.map fun r => (r.email, r.name)).dedup

/-- Result rows of the final `GROUP BY author_email, author_name` with
`COUNT(*)`: files owned per identity (percentage still 0, as in the Go
scan loop). -/
def rawContributors (owners : List FCRow) : List ContributorOwnership :=
  (ownerIdents owners).map fun id =>
    ⟨id.1, id.2, (owners.filter fun r => decide ((r.email, r.name) = id)).length, 0⟩

/-- Percentage assignment: `FilesOwned * 100.0 / totalFiles`. -/
def withPcts (cs : List ContributorOwnership) (totalFiles : Nat) : List ContributorOwnership :=
  cs.map fun c => { c with ownershipPct := (c.filesOwned : ℚ) * 100 / (totalFiles : ℚ) }

/-- Ordering used by the `sort.Slice` call: by `FilesOwned` descending. -/
def byOwnedDesc (a b : ContributorOwnership) : Prop :=
  b.filesOwned ≤ a.filesOwned

instance : DecidableRel byOwnedDesc := fun _ _ => Nat.decLe _ _

/-- The `sort.Slice(contributors, FilesOwned >)` call: sort descending by
files owned (insertion sort, one realisable behaviour of the unstable Go
sort). -/
def sortByOwnedDesc (cs : List ContributorOwnership) : List ContributorOwnership :=
  cs.insertionSort byOwnedDesc

/-- Go struct `BusFactorResult`. -/
structure BusFactorResult where
  busFactor : Nat
  threshold : ℚ
  totalFiles : Nat
  topContributors : List ContributorOwnership
  riskLevel : String
deriving DecidableEq

/-- The accumulation loop of `CalculateBusFactor`: `busFactor++;
cumulativeOwnership += pct; if cumulativeOwnership >= thresholdPct break`. -/
def busLoop (tPct : ℚ) : List ℚ → Nat → ℚ → Nat
  | [], bf, _ => bf
  | p :: ps, bf, cum =>
    if tPct ≤ cum + p then bf + 1 else busLoop tPct ps (bf + 1) (cum + p)

/-- Risk level assignment: `"high"` if the bus factor is 1, else
`"medium"` if it is at most 3, else `"low"`. -/
def riskOf (bf : Nat) : String :=
  if bf = 1 then "high" else if bf ≤ 3 then "medium" else "low"

/-- Owner rows the query produces for the given event list. -/
def ownersOf (evs : List CFEvent) : List FCRow :=
  fileOwners (fileContributions evs)

/-- Ownership-count rows the query returns for the given event list. -/
def rawOf (evs : List CFEvent) : List ContributorOwnership :=
  rawContributors (ownersOf evs)

/-- The `totalFiles` accumulator: total number of owned files. -/
def totalOwned (evs : List CFEvent) : Nat :=
  ((rawOf evs).map (·.filesOwned)).sum

/-- The contributor list after percentage assignment and the descending
sort, as held in `BusFactorResult.TopContributors`. -/
def sortedContributors (evs : List CFEvent) : List ContributorOwnership :=
  sortByOwnedDesc (withPcts (rawOf evs) (totalOwned evs))

/-- `CalculateBusFactor` (no active-days or exclusion filter, i.e. the
event list is already the filtered row set the query would read). -/
def calculateBusFactor (threshold : ℚ) (evs : List CFEvent) : BusFactorResult :=
  if totalOwned evs = 0 then
    ⟨0, threshold, 0, [], "unknown"⟩
  else
    let sorted := sortedContributors evs
    let bf := busLoop (threshold * 100) (sorted.map (·.ownershipPct)) 0 0
    ⟨bf, threshold, totalOwned evs, sorted, riskOf bf⟩

/-- Default threshold installed by the HTTP layer
(internal/http/response.go: `Threshold: 0.5`). -/
def defaultBusFactorThreshold : ℚ := 1 / 2

/-- Modelled from the spec: the number of contributors consumed by
accumulating ownership percentages, in the given order, until the
cumulative percentage reaches the threshold (all of them if it is never
reached). -/
def consumedSpec (tPct : ℚ) : List ℚ → Nat
  | [] => 0
  | p :: ps => if tPct ≤ p then 1 else 1 + consumedSpec (tPct - p) ps

/-- Distinct author identities appearing in the event list: the
contributors of the repository as visible to this query. -/
def eventIdents (evs : List CFEvent) : List (String × String) :=
  (evs.map fun e => (e.email, e.name)).dedup

/-! ### Churn (internal/stats/churn.go)

`GetHighChurnFiles` runs one SQL query over `commit_files` joined with
`commits`: group by `file_path`, `commit_count = COUNT(DISTINCT
commit_hash)`, `lines_changed = SUM(additions + deletions)`,
`last_modified = MAX(committed_at)`, ordered by `commit_count DESC,
lines_changed DESC`, `LIMIT opts.Limit` (bound directly; the commented-out
default for `Limit <= 0` is dead code).  The Go code then scans the rows
accumulating the two maxima and finally assigns scores and categories. -/

/-- Joined row of `commit_files` × `commits` relevant to the churn query. -/
structure ChurnEvent where
  path : String
  hash : String
  additions : Nat
  deletions : Nat
  committedAt : Int
deriving DecidableEq

/-- Row of the churn aggregation query (the scanned fields of the Go struct
`FileChurn` before score and category are filled in). -/
structure FileChurnRow where
  path : String
  commitCount : Nat
  linesChanged : Nat
  lastModified : Int
deriving DecidableEq

/-- Distinct file paths of the event list, in scan order. -/
def churnPaths (evs : List ChurnEvent) : List String :=
  (evs.map (·.path)).dedup

/-- `COUNT(DISTINCT cf.commit_hash)` for one path. -/
def commitCountOf (evs : List ChurnEvent) (p : String) : Nat :=
  (((evs.filter fun e => decide (e.path = p)).map (·.hash)).dedup).length

/-- `SUM(cf.additions + cf.deletions)` for one path. -/
def linesChangedOf (evs : List ChurnEvent) (p : String) : Nat :=
  ((evs.filter fun e => decide (e.path = p)).map fun e => e.additions + e.deletions).sum

/-- `MAX(c.committed_at)` for one path. -/
def lastModifiedOf (evs : List ChurnEvent) (p : String) : Int :=
  (((evs.filter fun e => decide (e.path = p)).map (·.committedAt)).max?).getD 0

/-- The grouped (unordered, unlimited) churn rows. -/
def churnRows (evs : List ChurnEvent) : List FileChurnRow :=
  (churnPaths evs).map fun p =>
    ⟨p, commitCountOf evs p, linesChangedOf evs p, lastModifiedOf evs p⟩

/-- The `ORDER BY commit_count DESC, lines_changed DESC` ordering. -/
def churnOrder (a b : FileChurnRow) : Prop :=
  b.commitCount < a.commitCount ∨
    (b.commitCount = a.commitCount ∧ b.linesChanged ≤ a.linesChanged)

instance : DecidableRel churnOrder := fun _ _ => instDecidableOr

/-- The row set the query returns: grouped rows, ordered, limited.  Ties
under the ordering are returned in an engine-chosen order; insertion sort
realises one such order. -/
def churnQueryRows (evs : List ChurnEvent) (lim : Nat) : List FileChurnRow :=
  ((churnRows evs).insertionSort churnOrder).take lim

/-- The `maxCommits` accumulator of the Go scan loop. -/
def maxCommitsOf (rows : List FileChurnRow) : Nat :=
  rows.foldl (fun m r => max m r.commitCount) 0

/-- The `maxLines` accumulator of the Go scan loop. -/
def maxLinesOf (rows : List FileChurnRow) : Nat :=
  rows.foldl (fun m r => max m r.linesChanged) 0

/-- `maxCommits` over the result set `GetHighChurnFiles` scans. -/
def churnMaxCommits (evs : List ChurnEvent) (lim : Nat) : Nat :=
  maxCommitsOf (churnQueryRows evs lim)

/-- `maxLines` over the result set `GetHighChurnFiles` scans. -/
def churnMaxLines (evs : List ChurnEvent) (lim : Nat) : Nat :=
  maxLinesOf (churnQueryRows evs lim)

/-- Weight constant `CommitFrequencyWeight = 0.7`. -/
noncomputable def CommitFrequencyWeight : ℝ := 7 / 10

/-- Weight constant `ChangeVolumeWeight = 0.3`. -/
noncomputable def ChangeVolumeWeight : ℝ := 3 / 10

/-- Categorization threshold `HotspotFrequencyThreshold = 0.6`. -/
def HotspotFrequencyThreshold : ℚ := 6 / 10

/-- Categorization threshold `HotspotVolumeThreshold = 0.6`. -/
def HotspotVolumeThreshold : ℚ := 6 / 10

/-- Churn limit constant `DefaultChurnLimit = 10` (defined in churn.go but
never read: the code that would substitute it is commented out). -/
def DefaultChurnLimit : Nat := 10

/-- `math.Log1p`. -/
noncomputable def log1p (x : ℝ) : ℝ := Real.log (1 + x)

/-- `calculateScore`: weighted, normalised churn score.  `math.Round`
(ties away from zero) agrees with Mathlib `round` (ties up) on the
non-negative values produced here. -/
noncomputable def calculateScore (commits lines maxCommits maxLines : Nat) : ℝ :=
  if maxCommits = 0 ∨ maxLines = 0 then 0
  else
    let normCommits : ℝ := (commits : ℝ) / (maxCommits : ℝ)
    let normLines : ℝ := log1p (lines : ℝ) / log1p (maxLines : ℝ)
    (round ((normCommits * CommitFrequencyWeight + normLines * ChangeVolumeWeight) * 1000) : ℝ) / 10

/-- `categorizeFile`: priority-ordered categorisation against 60 % of the
two maxima (float comparisons modelled exactly over `ℚ`). -/
def categorizeFile (commits lines maxCommits maxLines : Nat) : String :=
  if maxCommits = 0 then "stable"
  else
    let isHighFreq := (maxCommits : ℚ) * HotspotFrequencyThreshold ≤ (commits : ℚ)
    let isHighVolume := (maxLines : ℚ) * HotspotVolumeThreshold ≤ (lines : ℚ)
    if isHighFreq ∧ isHighVolume then "hotspot"
    else if isHighFreq then "frequent"
    else if isHighVolume then "massive"
    else "stable"

/-- Go struct `FileChurn` with score and category filled in. -/
structure FileChurn where
  path : String
  commitCount : Nat
  linesChanged : Nat
  churnScore : ℝ
  category : String
  lastModified : Int

/-- `GetHighChurnFiles`: query rows, then assign every row its score and
category computed against the maxima of the returned row set. -/
noncomputable def getHighChurnFiles (evs : List ChurnEvent) (lim : Nat) : List FileChurn :=
  let rows := churnQueryRows evs lim
  let mc := maxCommitsOf rows
  let ml := maxLinesOf rows
  rows.map fun r =>
    ⟨r.path, r.commitCount, r.linesChanged,
      calculateScore r.commitCount r.linesChanged mc ml,
      categorizeFile r.commitCount r.linesChanged mc ml,
      r.lastModified⟩

/-- Modelled from the spec: rounding to one decimal place. -/
noncomputable def roundToOneDecimal (x : ℝ) : ℝ := (round (x * 10) : ℝ) / 10

/-- Modelled from the spec: `0.7·(commit_count/max_commit_count) +
0.3·(log1p(lines_changed)/log1p(max_lines_changed))`, scaled ×100 and
rounded to one decimal, 0 if either maximum is 0. -/
noncomputable def specChurnScore (commits lines maxCommits maxLines : Nat) : ℝ :=
  if maxCommits = 0 ∨ maxLines = 0 then 0
  else
    roundToOneDecimal (100 *
      ((7 / 10) * ((commits : ℝ) / (maxCommits : ℝ)) +
       (3 / 10) * (log1p (lines : ℝ) / log1p (maxLines : ℝ))))

/-! ### Commit activity (internal/stats, `GetCommitActivity`)

The query groups commits on or after `startDate = now - days·24h` by their
calendar date; the Go loop then walks `currentDate` from `startDate` to
`now` in single-day steps, emitting one entry per day with the commit
count (zero when the date is absent from the map) and a level.  Timestamps
are modelled as seconds (`ℤ`); day arithmetic adds 86400, and formatting a
timestamp to its date string is modelled as flooring to its day number
(`Int.fdiv · 86400`), which is injective on distinct days. -/

/-- Entry of the activity series (Go struct `ActivityLevel`); `date` is
the day number of the formatted date string. -/
structure ActivityEntry where
  date : Int
  count : Nat
  level : Nat
deriving DecidableEq

/-- Day number of a timestamp (the `YYYY-MM-DD` formatting). -/
def dayOf (t : Int) : Int := t.fdiv 86400

/-- Level breakpoints: 0 commits ⇒ 0; 1–2 ⇒ 1; 3–5 ⇒ 2; 6–10 ⇒ 3; more ⇒ 4. -/
def levelOf (count : Nat) : Nat :=
  if count = 0 then 0
  else if count ≤ 2 then 1
  else if count ≤ 5 then 2
  else if count ≤ 10 then 3
  else 4

/-- Commit count the activity map holds for one day: commits at or after
`startDate` whose date formats to that day (0 when absent). -/
def countOnDay (commits : List Int) (startDate day : Int) : Nat :=
  (commits.filter fun t => decide (startDate ≤ t ∧ dayOf t = day)).length

/-- Series entry for the loop timestamp `cur`. -/
def entryAt (commits : List Int) (startDate cur : Int) : ActivityEntry :=
  ⟨dayOf cur, countOnDay commits startDate (dayOf cur),
    levelOf (countOnDay commits startDate (dayOf cur))⟩

/-- Body of the fill loop, structurally recursive on a fuel bound that
dominates the number of iterations. -/
def fillLoop (commits : List Int) (startDate now : Int) : Nat → Int → List ActivityEntry
  | 0, _ => []
  | fuel + 1, cur =>
    if now < cur then []
    else entryAt commits startDate cur :: fillLoop commits startDate now fuel (cur + 86400)

/-- The fill loop: `for !currentDate.After(now) { append entry;
currentDate = currentDate.AddDate(0,0,1) }`.  The fuel
`(now + 86400 - cur).toNat` strictly exceeds the iteration count, so the
fuel recursion computes exactly the while loop. -/
def fillDays (commits : List Int) (startDate now cur : Int) : List ActivityEntry :=
  fillLoop commits startDate now (now + 86400 - cur).toNat cur

/-- The effective window: `if days <= 0 { days = 365 }`. -/
def windowDays (days : Int) : Int :=
  if days ≤ 0 then 365 else days

/-- `startDate := time.Now().AddDate(0, 0, -days)`. -/
def windowStart (now days : Int) : Int :=
  now - windowDays days * 86400

/-- `GetCommitActivity` (both `time.Now()` calls modelled as the same
instant `now`). -/
def getCommitActivity (commits : List Int) (now : Int) (days : Int) : List ActivityEntry :=
  fillDays commits (windowStart now days) now (windowStart now days)

/-! ### Batched persistence (internal/database/contributor.go, commit_file.go)

Tables are modelled as row lists in insertion order; each batched
statement is one fold over the batch.  `UpsertContributors` uses
`ON CONFLICT (repository_id, email) DO UPDATE` with `commit_count =
contributors.commit_count + EXCLUDED.commit_count` (likewise the two line
counters), `LEAST` on `first_commit_at` and `GREATEST` on
`last_commit_at`; `UpsertCommitFiles` uses `ON CONFLICT (commit_hash,
file_path) DO NOTHING`.  Timestamps are modelled as `ℤ`. -/

/-- A `contributors` table row (the columns the upsert touches). -/
structure ContributorRow where
  repoId : Int
  email : String
  name : String
  commitCount : Int
  linesAdded : Int
  linesDeleted : Int
  firstCommitAt : Int
  lastCommitAt : Int
deriving DecidableEq

/-- Conflict predicate of the contributor upsert: equal
`(repository_id, email)`. -/
def sameContribKey (r c : ContributorRow) : Prop :=
  r.repoId = c.repoId ∧ r.email = c.email

instance : ∀ r c, Decidable (sameContribKey r c) := fun _ _ => instDecidableAnd

/-- One `INSERT ... ON CONFLICT (repository_id, email) DO UPDATE` of the
batched `UpsertContributors` statement. -/
def upsertContributor (table : List ContributorRow) (c : ContributorRow) : List ContributorRow :=
  if table.any fun r => decide (sameContribKey r c) then
    table.map fun r =>
      if sameContribKey r c then
        { r with
            name := c.name
            commitCount := r.commitCount + c.commitCount
            linesAdded := r.linesAdded + c.linesAdded
            linesDeleted := r.linesDeleted + c.linesDeleted
            firstCommitAt := min r.firstCommitAt c.firstCommitAt
            lastCommitAt := max r.lastCommitAt c.lastCommitAt }
      else r
  else table ++ [c]

/-- `UpsertContributors`: the whole batch, executed in order. -/
def upsertContributors (table : List ContributorRow) (batch : List ContributorRow) :
    List ContributorRow :=
  batch.foldl upsertContributor table

/-- A `commit_files` table row. -/
structure CommitFileRow where
  repoId : Int
  commitHash : String
  filePath : String
  additions : Int
  deletions : Int
deriving DecidableEq

/-- Conflict predicate of the commit-file insert: equal
`(commit_hash, file_path)`. -/
def sameCommitFileKey (r c : CommitFileRow) : Prop :=
  r.commitHash = c.commitHash ∧ r.filePath = c.filePath

instance : ∀ r c, Decidable (sameCommitFileKey r c) := fun _ _ => instDecidableAnd

/-- One `INSERT ... ON CONFLICT (commit_hash, file_path) DO NOTHING` of
the batched `UpsertCommitFiles` statement. -/
def insertCommitFile (table : List CommitFileRow) (cf : CommitFileRow) : List CommitFileRow :=
  if table.any fun r => decide (sameCommitFileKey r cf) then table
  else table ++ [cf]

/-- `UpsertCommitFiles`: the whole batch, executed in order. -/
def upsertCommitFiles (table : List CommitFileRow) (batch : List CommitFileRow) :
    List CommitFileRow :=
  batch.foldl insertCommitFile table

/-! ### Snapshot builder (internal/git/processor.go, `processSnapshot`)

The walk visits tree entries; per regular entry it derives the language
from `strings.Split(f.Name, ".")` and counts lines with a
`bufio.Scanner` capped at `ScannerMaxBufferSize`.  File names are
modelled as `List Char`, file contents as the list of lengths of their
newline-delimited segments.  The scanner returns one token per segment
while each segment is shorter than the buffer cap and stops with
`ErrTooLong` at the first segment of length ≥ cap (`scanner.Scan()`
returns `false`, so `lines` keeps the count accumulated so far); a failed
`f.Reader()` skips scanning, leaving `lines = 0`.  Every visited regular
entry is appended to the inventory; the callback returns `nil` either
way, so the walk always continues. -/

/-- Constant `ScannerInitialBufferSize = 64 * 1024` (the initial
allocation; it does not affect which scans succeed). -/
def ScannerInitialBufferSize : Nat := 64 * 1024

/-- Constant `ScannerMaxBufferSize = 1024 * 1024`. -/
def ScannerMaxBufferSize : Nat := 1024 * 1024

/-- Number of successful `scanner.Scan()` calls on a file whose
newline-delimited segments have the given lengths, with buffer cap
`maxBuf`. -/
def scanLineCount (maxBuf : Nat) : List Nat → Nat
  | [] => 0
  | l :: ls => if maxBuf ≤ l then 0 else 1 + scanLineCount maxBuf ls

/-- `strings.Split(name, ".")`: split at every dot. -/
def splitOnDot : List Char → List (List Char)
  | [] => [[]]
  | c :: cs =>
    match splitOnDot cs with
    | [] => [[]]
    | h :: t => if c = '.' then [] :: h :: t else (c :: h) :: t

/-- The literal `"Plain Text"`. -/
def plainText : List Char := "Plain Text".data

/-- Language detection: the last `.`-separated component when the name
splits into more than one part, else `"Plain Text"`. -/
def langOfName (name : List Char) : List Char :=
  let parts := splitOnDot name
  if 1 < parts.length then parts.getLastD [] else plainText

/-- A HEAD tree entry: name, whether the mode is a regular file, whether
`f.Reader()` succeeds, and the segment lengths of the content. -/
structure TreeEntry where
  name : List Char
  isFile : Bool
  readerOk : Bool
  lineLens : List Nat
deriving DecidableEq

/-- The `database.File` fields the snapshot fills in. -/
structure FileRecord where
  path : List Char
  language : List Char
  lines : Nat
deriving DecidableEq

/-- The record `processSnapshot` appends for one regular entry. -/
def fileRecordOf (e : TreeEntry) : FileRecord :=
  ⟨e.name, langOfName e.name,
    if e.readerOk then scanLineCount ScannerMaxBufferSize e.lineLens else 0⟩

/-- `processSnapshot`: walk all entries, keep one record per regular
entry. -/
def processSnapshot (entries : List TreeEntry) : List FileRecord :=
  entries.filterMap fun e => if e.isFile then some (fileRecordOf e) else none

/-- Modelled from the spec: the trailing filename extension — the suffix
after the last dot (the whole name when it has no dot). -/
def lastExt (name : List Char) : List Char :=
  (name.reverse.takeWhile fun c => decide (c ≠ '.')).reverse

/-! ## Helper lemmas -/

theorem scanLineCount_all_lt (m : Nat) (ls : List Nat) (h : ∀ l ∈ ls, l < m) :
    scanLineCount m ls = ls.length := by
  induction ls with
  | nil => rfl
  | cons l ls ih =>
    have hl := h l (List.mem_cons_self _ _)
    simp only [scanLineCount, List.length_cons, if_neg (by omega : ¬ m ≤ l)]
    rw [ih fun x hx => h x (List.mem_cons_of_mem _ hx)]
    omega

theorem scanLineCount_stops (m : Nat) (pre : List Nat) (l : Nat) (post : List Nat)
    (hpre : ∀ x ∈ pre, x < m) (hl : m ≤ l) :
    scanLineCount m (pre ++ l :: post) = pre.length := by
  induction pre with
  | nil => simp [scanLineCount, if_pos hl]
  | cons a pre ih =>
    have ha := hpre a (List.mem_cons_self _ _)
    simp only [List.cons_append, scanLineCount, List.length_cons,
      if_neg (by omega : ¬ m ≤ a)]
    rw [List.append_eq, ih fun x hx => hpre x (List.mem_cons_of_mem _ hx)]
    omega

theorem takeWhile_append_not (p : Char → Bool) (xs : List Char) (y : Char) (ys : List Char)
    (hy : ¬ p y = true) :
    (xs ++ y :: ys).takeWhile p = xs.takeWhile p := by
  induction xs with
  | nil => simp [List.takeWhile_cons, hy]
  | cons a xs ih =>
    by_cases ha : p a = true
    · simp [List.takeWhile_cons, ha, ih]
    · simp [List.takeWhile_cons, ha]

theorem takeWhile_stop_left (p : Char → Bool) (xs ys : List Char) (x : Char)
    (hx : x ∈ xs) (hpx : ¬ p x = true) :
    (xs ++ ys).takeWhile p = xs.takeWhile p := by
  obtain ⟨u, v, rfl⟩ := List.append_of_mem hx
  rw [List.append_assoc, List.cons_append, takeWhile_append_not p u x _ hpx,
    takeWhile_append_not p u x v hpx]

theorem takeWhile_of_all (p : Char → Bool) (xs : List Char) (h : ∀ x ∈ xs, p x = true) :
    xs.takeWhile p = xs := by
  induction xs with
  | nil => rfl
  | cons a xs ih =>
    simp only [List.takeWhile_cons, h a (List.mem_cons_self _ _), if_pos]
    rw [ih fun x hx => h x (List.mem_cons_of_mem _ hx)]

theorem lastExt_of_not_mem (name : List Char) (h : '.' ∉ name) : lastExt name = name := by
  unfold lastExt
  rw [takeWhile_of_all]
  · exact List.reverse_reverse name
  · intro x hx
    simp only [decide_eq_true_eq]
    intro hdot
    exact h (hdot ▸ List.mem_reverse.mp hx)

theorem splitOnDot_ne_nil (s : List Char) : splitOnDot s ≠ [] := by
  cases s with
  | nil => simp [splitOnDot]
  | cons c cs =>
    simp only [splitOnDot]
    rcases h : splitOnDot cs with _ | ⟨h1, t⟩
    · simp
    · by_cases hc : c = '.' <;> simp [hc]

theorem one_lt_splitOnDot_iff (s : List Char) :
    1 < (splitOnDot s).length ↔ '.' ∈ s := by
  induction s with
  | nil => simp [splitOnDot]
  | cons c cs ih =>
    rcases h : splitOnDot cs with _ | ⟨hd, tl⟩
    · exact absurd h (splitOnDot_ne_nil cs)
    · by_cases hc : c = '.'
      · subst hc
        simp [splitOnDot, h]
      · rw [h] at ih
        simp only [splitOnDot, h, if_neg hc, List.mem_cons]
        simp only [List.length_cons] at ih ⊢
        constructor
        · intro hlt
          exact Or.inr (ih.mp hlt)
        · rintro (h1 | h1)
          · exact absurd h1.symm hc
          · exact ih.mpr h1

theorem getLastD_irrel (l : List (List Char)) (h : l ≠ []) (d d' : List Char) :
    l.getLastD d = l.getLastD d' := by
  induction l generalizing d d' with
  | nil => exact absurd rfl h
  | cons a l ih =>
    cases l with
    | nil => rfl
    | cons b l => simp only [List.getLastD_cons]

theorem lastExt_dot_cons (cs : List Char) : lastExt ('.' :: cs) = lastExt cs := by
  unfold lastExt
  rw [List.reverse_cons, takeWhile_append_not _ _ '.' [] (by simp)]

theorem lastExt_cons_of_mem (c : Char) (cs : List Char) (h : '.' ∈ cs) :
    lastExt (c :: cs) = lastExt cs := by
  unfold lastExt
  rw [List.reverse_cons,
    takeWhile_stop_left _ _ [c] '.' (List.mem_reverse.mpr h) (by simp)]

theorem getLastD_splitOnDot (s : List Char) :
    (splitOnDot s).getLastD [] = lastExt s := by
  induction s with
  | nil => simp [splitOnDot, lastExt]
  | cons c cs ih =>
    rcases h : splitOnDot cs with _ | ⟨hd, tl⟩
    · exact absurd h (splitOnDot_ne_nil cs)
    · by_cases hc : c = '.'
      · subst hc
        rw [show splitOnDot ('.' :: cs) = [] :: hd :: tl from by simp [splitOnDot, h],
          List.getLastD_cons, lastExt_dot_cons, ← ih, h]
      · simp only [splitOnDot, h, if_neg hc]
        cases tl with
        | nil =>
          have hnodot : '.' ∉ cs := by
            intro hmem
            have := (one_lt_splitOnDot_iff cs).mpr hmem
            rw [h] at this
            simp at this
          have hhd : hd = cs := by
            have := ih
            rw [h, lastExt_of_not_mem cs hnodot] at this
            simpa using this
          have : '.' ∉ c :: cs := by
            intro hmem
            rcases List.mem_cons.mp hmem with h1 | h1
            · exact hc h1.symm
            · exact hnodot h1
          rw [lastExt_of_not_mem _ this, hhd]
          simp [List.getLastD_cons]
        | cons t0 ts =>
          have hdot : '.' ∈ cs := by
            rw [← one_lt_splitOnDot_iff, h]
            simp
          rw [lastExt_cons_of_mem c cs hdot, ← ih, h]
          simp only [List.getLastD_cons]

/-! ## C8 — snapshot line scan and oversized lines -/

/-- C8, counterexample: a file whose second line exceeds 1 MiB contributes
1 line (the count accumulated before the scanner stops), not 0 as the
claim states, while the walk continues and the following file is scanned
normally. -/
theorem snapshot_oversized_line_counterexample :
    (processSnapshot
        [⟨"a.txt".data, true, true, [10, ScannerMaxBufferSize + 1, 7]⟩,
         ⟨"b.txt".data, true, true, [4, 4]⟩]).map FileRecord.lines = [1, 2] ∧
      ScannerMaxBufferSize < ScannerMaxBufferSize + 1 ∧ (1 : Nat) ≠ 0 := by
  decide

/-- C8, amended: a line of length ≥ `ScannerMaxBufferSize` (1 MiB) makes
only that same scan stop; the record of that file keeps the number of lines
read before the oversized line (0 only when the first line is oversized),
the tree walk continues, and every other regular file with only in-bound
lines is counted in full. -/
theorem snapshot_scan_truncated_count (pre : List Nat) (l : Nat) (post : List Nat)
    (e : TreeEntry) (es1 es2 : List TreeEntry)
    (hfile : e.isFile = true) (hok : e.readerOk = true)
    (hlens : e.lineLens = pre ++ l :: post)
    (hpre : ∀ x ∈ pre, x < ScannerMaxBufferSize) (hl : ScannerMaxBufferSize ≤ l) :
    processSnapshot (es1 ++ e :: es2) =
      processSnapshot es1 ++ fileRecordOf e :: processSnapshot es2 ∧
    (fileRecordOf e).lines = pre.length ∧
    ∀ e2 ∈ es1 ++ es2, e2.isFile = true → e2.readerOk = true →
      (∀ x ∈ e2.lineLens, x < ScannerMaxBufferSize) →
      (fileRecordOf e2).lines = e2.lineLens.length := by
  refine ⟨?_, ?_, ?_⟩
  · unfold processSnapshot
    rw [List.filterMap_append, List.filterMap_cons]
    simp [hfile]
  · unfold fileRecordOf
    simp only [hok, if_pos]
    rw [hlens]
    exact scanLineCount_stops _ pre l post hpre hl
  · intro e2 _ hfile2 hok2 hsmall
    unfold fileRecordOf
    simp only [hok2, if_pos]
    exact scanLineCount_all_lt _ _ hsmall

/-- C8 witness: instantiation of the amended theorem at a two-entry walk. -/
theorem snapshot_scan_truncated_count_witness :
    processSnapshot
        [⟨"a".data, true, true, [10, ScannerMaxBufferSize, 7]⟩,
         ⟨"b".data, true, true, [4]⟩] =
      fileRecordOf ⟨"a".data, true, true, [10, ScannerMaxBufferSize, 7]⟩ ::
        processSnapshot [⟨"b".data, true, true, [4]⟩] ∧
    (fileRecordOf ⟨"a".data, true, true, [10, ScannerMaxBufferSize, 7]⟩).lines = 1 ∧
    ∀ e2 ∈ [⟨"b".data, true, true, [4]⟩] , e2.isFile = true → e2.readerOk = true →
      (∀ x ∈ e2.lineLens, x < ScannerMaxBufferSize) →
      (fileRecordOf e2).lines = e2.lineLens.length := by
  have h := snapshot_scan_truncated_count [10] ScannerMaxBufferSize [7]
    ⟨"a".data, true, true, [10, ScannerMaxBufferSize, 7]⟩ []
    [⟨"b".data, true, true, [4]⟩] rfl rfl rfl (by decide) (by decide)
  simpa using h

/-! ## C9 — snapshot language detection -/

/-- C9, counterexample: for the entry named `A.GO` the recorded language
is the verbatim extension `GO`, which differs from its lowercase form
`go`, refuting the claim that the language is the lowercase extension. -/
theorem snapshot_language_lowercase_counterexample :
    processSnapshot [⟨"A.GO".data, true, true, [3]⟩] =
      [⟨"A.GO".data, "GO".data, 1⟩] ∧
    lastExt "A.GO".data = "GO".data ∧
    "GO".data.map Char.toLower = "go".data ∧
    "GO".data ≠ "go".data := by
  decide

/-- C9, amended: the language of every snapshot record is the trailing
filename extension taken verbatim (the suffix after the last dot, case
preserved, not lowercased), and `"Plain Text"` exactly when the name
contains no dot. -/
theorem snapshot_language_extension (entries : List TreeEntry) :
    (∀ r ∈ processSnapshot entries, r.language = langOfName r.path) ∧
    ∀ name : List Char,
      langOfName name = if '.' ∈ name then lastExt name else plainText := by
  constructor
  · intro r hr
    unfold processSnapshot at hr
    rcases List.mem_filterMap.mp hr with ⟨e, _, he⟩
    by_cases hf : e.isFile = true
    · rw [if_pos hf] at he
      cases he
      rfl
    · simp only [hf] at he
      simp at he
  · intro name
    unfold langOfName
    by_cases hdot : '.' ∈ name
    · rw [if_pos hdot, if_pos ((one_lt_splitOnDot_iff name).mpr hdot),
        getLastD_splitOnDot]
    · rw [if_neg hdot, if_neg (by rw [one_lt_splitOnDot_iff]; exact hdot)]

/-- C9 witness: instantiation of the amended theorem at a concrete walk. -/
theorem snapshot_language_extension_witness :
    (⟨"A.GO".data, "GO".data, 1⟩ : FileRecord).language =
      langOfName (⟨"A.GO".data, "GO".data, 1⟩ : FileRecord).path ∧
    langOfName "A.GO".data =
      if '.' ∈ "A.GO".data then lastExt "A.GO".data else plainText := by
  have h := snapshot_language_extension [⟨"A.GO".data, true, true, [3]⟩]
  exact ⟨h.1 ⟨"A.GO".data, "GO".data, 1⟩ (by decide), h.2 "A.GO".data⟩

/-! ## C7 — batched persistence conflict semantics -/

theorem insertCommitFile_mem (t : List CommitFileRow) (c r : CommitFileRow) (h : r ∈ t) :
    r ∈ insertCommitFile t c := by
  unfold insertCommitFile
  split
  · exact h
  · exact List.mem_append_left _ h

theorem upsertCommitFiles_mem (b : List CommitFileRow) (t : List CommitFileRow)
    (r : CommitFileRow) (h : r ∈ t) : r ∈ upsertCommitFiles t b := by
  induction b generalizing t with
  | nil => exact h
  | cons c b ih => exact ih _ (insertCommitFile_mem t c r h)

theorem insertCommitFile_keyIn (t : List CommitFileRow) (c : CommitFileRow) :
    ∃ r ∈ insertCommitFile t c, sameCommitFileKey r c := by
  unfold insertCommitFile
  by_cases h : (t.any fun r => decide (sameCommitFileKey r c)) = true
  · rw [if_pos h]
    rcases List.any_eq_true.mp h with ⟨r, hr, hkey⟩
    exact ⟨r, hr, of_decide_eq_true hkey⟩
  · rw [if_neg h]
    exact ⟨c, List.mem_append_right _ (List.mem_singleton_self c), rfl, rfl⟩

theorem upsertCommitFiles_keyIn (b : List CommitFileRow) (t : List CommitFileRow) :
    ∀ c ∈ b, ∃ r ∈ upsertCommitFiles t b, sameCommitFileKey r c := by
  induction b generalizing t with
  | nil => intro c hc; exact absurd hc (List.not_mem_nil c)
  | cons c0 b ih =>
    intro c hc
    rcases List.mem_cons.mp hc with rfl | hc
    · rcases insertCommitFile_keyIn t c with ⟨r, hr, hkey⟩
      exact ⟨r, upsertCommitFiles_mem b _ r hr, hkey⟩
    · exact ih (insertCommitFile t c0) c hc

theorem insertCommitFile_of_keyIn (t : List CommitFileRow) (c : CommitFileRow)
    (h : ∃ r ∈ t, sameCommitFileKey r c) : insertCommitFile t c = t := by
  unfold insertCommitFile
  rcases h with ⟨r, hr, hkey⟩
  rw [if_pos (List.any_eq_true.mpr ⟨r, hr, decide_eq_true hkey⟩)]

theorem upsertCommitFiles_of_all_keyIn (b : List CommitFileRow) (t : List CommitFileRow)
    (h : ∀ c ∈ b, ∃ r ∈ t, sameCommitFileKey r c) : upsertCommitFiles t b = t := by
  induction b with
  | nil => rfl
  | cons c0 b ih =>
    show upsertCommitFiles (insertCommitFile t c0) b = t
    rw [insertCommitFile_of_keyIn t c0 (h c0 (List.mem_cons_self _ _))]
    exact ih fun c hc => h c (List.mem_cons_of_mem _ hc)

/-- C7, counterexample: replaying the same one-row contributor batch
doubles `commit_count` (6 instead of 3), so the batched contributor
upsert is not idempotent. -/
theorem contributor_batch_not_idempotent :
    upsertContributors (upsertContributors [] [⟨1, "a", "A", 3, 10, 2, 5, 9⟩])
        [⟨1, "a", "A", 3, 10, 2, 5, 9⟩] ≠
      upsertContributors [] [⟨1, "a", "A", 3, 10, 2, 5, 9⟩] ∧
    (upsertContributors (upsertContributors [] [⟨1, "a", "A", 3, 10, 2, 5, 9⟩])
        [⟨1, "a", "A", 3, 10, 2, 5, 9⟩]).map ContributorRow.commitCount = [6] ∧
    (upsertContributors [] [⟨1, "a", "A", 3, 10, 2, 5, 9⟩]).map
        ContributorRow.commitCount = [3] := by
  decide

/-- C7, amended: replaying a CommitFile batch is a no-op under the
`(commit_hash, file_path)` ignore-on-conflict rule, but replaying a
Contributor batch is not idempotent: on conflict the upsert merges
first/last-seen via min/max (leaving them unchanged on an identical
batch) while accumulating `commit_count`, `lines_added` and
`lines_deleted`. -/
theorem batch_upsert_semantics :
    (∀ (t b : List CommitFileRow),
        upsertCommitFiles (upsertCommitFiles t b) b = upsertCommitFiles t b) ∧
    ∀ c : ContributorRow,
      upsertContributors (upsertContributors [] [c]) [c] =
        [{ c with
            commitCount := c.commitCount + c.commitCount
            linesAdded := c.linesAdded + c.linesAdded
            linesDeleted := c.linesDeleted + c.linesDeleted }] := by
  constructor
  · intro t b
    exact upsertCommitFiles_of_all_keyIn b _ (upsertCommitFiles_keyIn b t)
  · intro c
    show upsertContributors (upsertContributor [] c) [c] = _
    have h0 : upsertContributor [] c = [c] := by
      unfold upsertContributor
      simp
    rw [h0]
    show upsertContributor [c] c = _
    unfold upsertContributor
    rw [if_pos (by simp [sameContribKey])]
    simp [sameContribKey]

/-! ## C5 — commit activity series -/

theorem fillLoop_of_lt (commits : List Int) (startDate now : Int) (fuel : Nat) (cur : Int)
    (h : now < cur) : fillLoop commits startDate now fuel cur = [] := by
  cases fuel with
  | zero => rfl
  | succ f => unfold fillLoop; rw [if_pos h]

theorem fillLoop_spec (commits : List Int) (startDate now : Int) :
    ∀ (m fuel : Nat) (cur : Int), now - cur = (m : Int) * 86400 → m < fuel →
      fillLoop commits startDate now fuel cur =
        (List.range (m + 1)).map fun k : Nat =>
          entryAt commits startDate (cur + (k : Int) * 86400) := by
  intro m
  induction m with
  | zero =>
    intro fuel cur hm hf
    have hcur : cur = now := by omega
    cases fuel with
    | zero => omega
    | succ f =>
      unfold fillLoop
      rw [if_neg (by omega), fillLoop_of_lt commits startDate now f _ (by omega)]
      subst hcur
      rw [show List.range 1 = [0] from rfl]
      norm_num
  | succ m ih =>
    intro fuel cur hm hf
    have hmz : now - cur = ((m : Int) + 1) * 86400 := by push_cast at hm ⊢; linarith
    cases fuel with
    | zero => omega
    | succ f =>
      unfold fillLoop
      rw [if_neg (by nlinarith), ih f (cur + 86400) (by linarith) (by omega)]
      rw [List.range_succ_eq_map (m + 1), List.map_cons, List.map_map]
      refine List.cons_eq_cons.mpr ⟨by norm_num, ?_⟩
      refine List.map_congr_left fun k _ => ?_
      show entryAt commits startDate (cur + 86400 + (k : Int) * 86400) =
        entryAt commits startDate (cur + ((k : Nat).succ : Int) * 86400)
      congr 1
      push_cast
      ring_nf

theorem fillDays_spec (commits : List Int) (startDate now cur : Int) (m : Nat)
    (h : now - cur = (m : Int) * 86400) :
    fillDays commits startDate now cur =
      (List.range (m + 1)).map fun k : Nat =>
        entryAt commits startDate (cur + (k : Int) * 86400) := by
  unfold fillDays
  exact fillLoop_spec commits startDate now m _ cur h (by omega)

theorem windowDays_pos (days : Int) : 0 < windowDays days := by
  unfold windowDays
  split <;> omega

theorem getCommitActivity_spec (commits : List Int) (now days : Int) :
    getCommitActivity commits now days =
      (List.range ((windowDays days).toNat + 1)).map fun k : Nat =>
        entryAt commits (windowStart now days) (windowStart now days + (k : Int) * 86400) := by
  unfold getCommitActivity
  refine fillDays_spec commits _ now _ (windowDays days).toNat ?_
  have := windowDays_pos days
  unfold windowStart
  omega

theorem dayOf_add_mul (t : Int) (k : Nat) : dayOf (t + (k : Int) * 86400) = dayOf t + k := by
  unfold dayOf
  rw [Int.fdiv_eq_ediv _ (by norm_num), Int.fdiv_eq_ediv _ (by norm_num)]
  exact Int.add_mul_ediv_right t k (by norm_num)

/-- C5, counterexample: for the default 365-day window the series has 366
entries (the loop emits one entry per day from `now - 365 d` to `now`
inclusive), not 365 as the claim states. -/
theorem commit_activity_length_counterexample :
    (getCommitActivity [] 0 365).length = 366 ∧ (366 : Nat) ≠ 365 := by
  constructor
  · rw [getCommitActivity_spec]
    simp [windowDays]
  · decide

/-- C5, amended: for a requested window of `d` days (default 365 when
`d ≤ 0`) the series is dense and ascending — entry `i` is calendar day
`startDay + i` — with exactly `d + 1` entries (the days of the trailing window
plus the current day), each carrying the number of commits of that day
inside the window (0 when none) and the level given by the fixed
breakpoints 0 ⇒ 0, 1–2 ⇒ 1, 3–5 ⇒ 2, 6–10 ⇒ 3, more than 10 ⇒ 4. -/
theorem commit_activity_series (commits : List Int) (now days : Int) :
    (getCommitActivity commits now days).length = (windowDays days).toNat + 1 ∧
    (∀ i (h : i < (getCommitActivity commits now days).length),
        (getCommitActivity commits now days).get ⟨i, h⟩ =
          ⟨dayOf (windowStart now days) + i,
            countOnDay commits (windowStart now days) (dayOf (windowStart now days) + i),
            levelOf (countOnDay commits (windowStart now days)
              (dayOf (windowStart now days) + i))⟩) ∧
    levelOf 0 = 0 ∧
    (∀ c, 1 ≤ c → c ≤ 2 → levelOf c = 1) ∧
    (∀ c, 3 ≤ c → c ≤ 5 → levelOf c = 2) ∧
    (∀ c, 6 ≤ c → c ≤ 10 → levelOf c = 3) ∧
    (∀ c, 11 ≤ c → levelOf c = 4) := by
  refine ⟨?_, ?_, rfl, ?_, ?_, ?_, ?_⟩
  · rw [getCommitActivity_spec]
    simp
  · intro i h
    have h2 : i < ((List.range ((windowDays days).toNat + 1)).map fun k : Nat =>
        entryAt commits (windowStart now days)
          (windowStart now days + (k : Int) * 86400)).length := by
      rw [← getCommitActivity_spec]; exact h
    have := List.get_of_eq (getCommitActivity_spec commits now days) ⟨i, h⟩
    rw [this]
    rw [List.get_map]
    simp only [List.get_range]
    unfold entryAt
    rw [dayOf_add_mul]
  · intro c h1 h2; unfold levelOf; split_ifs <;> omega
  · intro c h1 h2; unfold levelOf; split_ifs <;> omega
  · intro c h1 h2; unfold levelOf; split_ifs <;> omega
  · intro c h1; unfold levelOf; split_ifs <;> omega

/-- C5 witness: instantiation of the amended theorem at a one-day window
containing a single commit. -/
theorem commit_activity_series_witness :
    (getCommitActivity [100] 86400 1).length = 2 ∧
    levelOf 1 = 1 ∧ levelOf 4 = 2 ∧ levelOf 7 = 3 ∧ levelOf 100 = 4 := by
  have h := commit_activity_series [100] 86400 1
  refine ⟨?_, ?_, ?_, ?_, ?_⟩
  · rw [h.1]; decide
  · exact h.2.2.2.1 1 (by decide) (by decide)
  · exact h.2.2.2.2.1 4 (by decide) (by decide)
  · exact h.2.2.2.2.2.1 7 (by decide) (by decide)
  · exact h.2.2.2.2.2.2 100 (by decide)

/-! ## C3, C4, C10 — churn score, category, zero limit -/

theorem foldl_max_le_gen (g : FileChurnRow → Nat) (l : List FileChurnRow) (a : Nat) :
    a ≤ l.foldl (fun m r => max m (g r)) a ∧
      ∀ r ∈ l, g r ≤ l.foldl (fun m r => max m (g r)) a := by
  induction l generalizing a with
  | nil => exact ⟨le_refl a, by simp⟩
  | cons x l ih =>
    refine ⟨le_trans (le_max_left a (g x)) (ih (max a (g x))).1, ?_⟩
    intro r hr
    rcases List.mem_cons.mp hr with rfl | hr
    · exact le_trans (le_max_right a (g r)) (ih (max a (g r))).1
    · exact (ih (max a (g x))).2 r hr

theorem mem_le_maxCommitsOf (rows : List FileChurnRow) (r : FileChurnRow) (h : r ∈ rows) :
    r.commitCount ≤ maxCommitsOf rows :=
  (foldl_max_le_gen (·.commitCount) rows 0).2 r h

theorem mem_le_maxLinesOf (rows : List FileChurnRow) (r : FileChurnRow) (h : r ∈ rows) :
    r.linesChanged ≤ maxLinesOf rows :=
  (foldl_max_le_gen (·.linesChanged) rows 0).2 r h

theorem churnQueryRows_subset (evs : List ChurnEvent) (lim : Nat) (r : FileChurnRow)
    (hr : r ∈ churnQueryRows evs lim) : r ∈ churnRows evs := by
  unfold churnQueryRows at hr
  exact (List.perm_insertionSort churnOrder (churnRows evs)).subset
    (List.take_subset _ _ hr)

theorem churnRows_commitCount_pos (evs : List ChurnEvent) (r : FileChurnRow)
    (hr : r ∈ churnRows evs) : 1 ≤ r.commitCount := by
  unfold churnRows at hr
  rcases List.mem_map.mp hr with ⟨p, hp, rfl⟩
  unfold churnPaths at hp
  rcases List.mem_map.mp (List.mem_dedup.mp hp) with ⟨e, he, rfl⟩
  show 1 ≤ commitCountOf evs e.path
  unfold commitCountOf
  have hmem : e.hash ∈ ((evs.filter fun x => decide (x.path = e.path)).map (·.hash)).dedup := by
    exact List.mem_dedup.mpr
      (List.mem_map.mpr ⟨e, List.mem_filter.mpr ⟨he, by simp⟩, rfl⟩)
  exact List.length_pos.mpr (List.ne_nil_of_mem hmem)

theorem calculateScore_eq_specChurnScore (c l mc ml : Nat) :
    calculateScore c l mc ml = specChurnScore c l mc ml := by
  unfold calculateScore specChurnScore roundToOneDecimal
    CommitFrequencyWeight ChangeVolumeWeight
  split
  · rfl
  · ring_nf

theorem floor_two_thousand_one_halves : ⌊(2001 / 2 : ℝ)⌋ = 1000 := by
  rw [Int.floor_eq_iff]
  norm_num

theorem round_div_ten_bounds (s : ℝ) (h0 : 0 ≤ s) (h1 : s ≤ 1) :
    0 ≤ (round (s * 1000) : ℝ) / 10 ∧ (round (s * 1000) : ℝ) / 10 ≤ 100 := by
  have hr0 : (0 : ℤ) ≤ round (s * 1000) := by
    rw [round_eq]
    exact Int.floor_nonneg.mpr (by linarith)
  have hr1 : round (s * 1000) ≤ 1000 := by
    rw [round_eq]
    calc ⌊s * 1000 + 1 / 2⌋ ≤ ⌊(2001 / 2 : ℝ)⌋ := Int.floor_le_floor (by linarith)
      _ = 1000 := floor_two_thousand_one_halves
  have c0 : (0 : ℝ) ≤ (round (s * 1000) : ℝ) := by exact_mod_cast hr0
  have c1 : ((round (s * 1000) : ℤ) : ℝ) ≤ 1000 := by exact_mod_cast hr1
  constructor
  · positivity
  · linarith

theorem calculateScore_of_ne (c l mc ml : Nat) (hmc : mc ≠ 0) (hml : ml ≠ 0) :
    calculateScore c l mc ml =
      (round (((c : ℝ) / (mc : ℝ) * CommitFrequencyWeight +
          log1p (l : ℝ) / log1p (ml : ℝ) * ChangeVolumeWeight) * 1000) : ℝ) / 10 := by
  unfold calculateScore
  rw [if_neg (by push_neg; exact ⟨hmc, hml⟩)]

theorem calculateScore_bounds (c l mc ml : Nat) (hc : c ≤ mc) (hl : l ≤ ml) :
    0 ≤ calculateScore c l mc ml ∧ calculateScore c l mc ml ≤ 100 := by
  by_cases hz : mc = 0 ∨ ml = 0
  · unfold calculateScore
    rw [if_pos hz]
    norm_num
  · push_neg at hz
    rw [calculateScore_of_ne c l mc ml hz.1 hz.2]
    have hmc : (1 : ℝ) ≤ (mc : ℝ) := by exact_mod_cast Nat.one_le_iff_ne_zero.mpr hz.1
    have hml : (1 : ℝ) ≤ (ml : ℝ) := by exact_mod_cast Nat.one_le_iff_ne_zero.mpr hz.2
    have hnc0 : (0 : ℝ) ≤ (c : ℝ) / (mc : ℝ) :=
      div_nonneg (Nat.cast_nonneg c) (Nat.cast_nonneg mc)
    have hnc1 : (c : ℝ) / (mc : ℝ) ≤ 1 :=
      div_le_one_of_le₀ (Nat.cast_le.mpr hc) (Nat.cast_nonneg mc)
    have hlog0 : (0 : ℝ) ≤ log1p (l : ℝ) :=
      Real.log_nonneg (by have := Nat.cast_nonneg (α := ℝ) l; linarith)
    have hlogml : (0 : ℝ) < log1p (ml : ℝ) := Real.log_pos (by linarith)
    have hlogle : log1p (l : ℝ) ≤ log1p (ml : ℝ) := by
      unfold log1p
      refine Real.log_le_log (by have := Nat.cast_nonneg (α := ℝ) l; linarith) ?_
      have : (l : ℝ) ≤ (ml : ℝ) := Nat.cast_le.mpr hl
      linarith
    have hnl0 : (0 : ℝ) ≤ log1p (l : ℝ) / log1p (ml : ℝ) := div_nonneg hlog0 hlogml.le
    have hnl1 : log1p (l : ℝ) / log1p (ml : ℝ) ≤ 1 := div_le_one_of_le₀ hlogle hlogml.le
    refine round_div_ten_bounds _ ?_ ?_
    · unfold CommitFrequencyWeight ChangeVolumeWeight
      nlinarith
    · unfold CommitFrequencyWeight ChangeVolumeWeight
      nlinarith

/-- C3: for every file in a churn result set, the assigned churn score is
`calculateScore` of its counts against the maxima of the result set; that
score equals the spec formula `0.7·(commit_count/max_commit_count) +
0.3·(log1p(lines_changed)/log1p(max_lines_changed))` scaled by 100 and
rounded to one decimal place, equals 0 whenever either maximum is 0, and
always lies in `[0, 100]`. -/
theorem churn_score_formula (evs : List ChurnEvent) (lim : Nat) (r : FileChurnRow)
    (hr : r ∈ churnQueryRows evs lim) :
    (getHighChurnFiles evs lim).map FileChurn.churnScore =
      (churnQueryRows evs lim).map (fun q =>
        calculateScore q.commitCount q.linesChanged
          (churnMaxCommits evs lim) (churnMaxLines evs lim)) ∧
    calculateScore r.commitCount r.linesChanged
        (churnMaxCommits evs lim) (churnMaxLines evs lim) =
      specChurnScore r.commitCount r.linesChanged
        (churnMaxCommits evs lim) (churnMaxLines evs lim) ∧
    (churnMaxCommits evs lim = 0 ∨ churnMaxLines evs lim = 0 →
      calculateScore r.commitCount r.linesChanged
        (churnMaxCommits evs lim) (churnMaxLines evs lim) = 0) ∧
    0 ≤ calculateScore r.commitCount r.linesChanged
        (churnMaxCommits evs lim) (churnMaxLines evs lim) ∧
    calculateScore r.commitCount r.linesChanged
        (churnMaxCommits evs lim) (churnMaxLines evs lim) ≤ 100 := by
  refine ⟨?_, calculateScore_eq_specChurnScore _ _ _ _, ?_, ?_⟩
  · unfold getHighChurnFiles churnMaxCommits churnMaxLines
    rw [List.map_map]
    rfl
  · intro h
    unfold calculateScore
    rw [if_pos h]
  · exact calculateScore_bounds _ _ _ _
      (mem_le_maxCommitsOf _ r hr) (mem_le_maxLinesOf _ r hr)

/-- C3 witness: instantiation at a one-event repository. -/
theorem churn_score_formula_witness :
    (⟨"f", 1, 3, 0⟩ : FileChurnRow) ∈ churnQueryRows [⟨"f", "h", 1, 2, 0⟩] 1 ∧
    0 ≤ calculateScore 1 3 (churnMaxCommits [⟨"f", "h", 1, 2, 0⟩] 1)
        (churnMaxLines [⟨"f", "h", 1, 2, 0⟩] 1) ∧
    calculateScore 1 3 (churnMaxCommits [⟨"f", "h", 1, 2, 0⟩] 1)
        (churnMaxLines [⟨"f", "h", 1, 2, 0⟩] 1) ≤ 100 := by
  have hmem : (⟨"f", 1, 3, 0⟩ : FileChurnRow) ∈ churnQueryRows [⟨"f", "h", 1, 2, 0⟩] 1 := by
    decide
  have h := churn_score_formula [⟨"f", "h", 1, 2, 0⟩] 1 ⟨"f", 1, 3, 0⟩ hmem
  exact ⟨hmem, h.2.2.2.1, h.2.2.2.2⟩

/-- C4: for every file in a churn result set, the assigned category is
`categorizeFile` of its counts against the maxima of the result set, which
follows the priority order hotspot (both conditions), frequent (only
frequency), massive (only volume), stable (neither), with the conditions
`commit_count ≥ 0.6·max_commit_count` and
`lines_changed ≥ 0.6·max_lines_changed`; a file attaining both maxima is
always categorized hotspot. -/
theorem churn_category_priority (evs : List ChurnEvent) (lim : Nat) (r : FileChurnRow)
    (hr : r ∈ churnQueryRows evs lim) :
    (getHighChurnFiles evs lim).map FileChurn.category =
      (churnQueryRows evs lim).map (fun q =>
        categorizeFile q.commitCount q.linesChanged
          (churnMaxCommits evs lim) (churnMaxLines evs lim)) ∧
    categorizeFile r.commitCount r.linesChanged
        (churnMaxCommits evs lim) (churnMaxLines evs lim) =
      (if (churnMaxCommits evs lim : ℚ) * HotspotFrequencyThreshold ≤ (r.commitCount : ℚ) ∧
          (churnMaxLines evs lim : ℚ) * HotspotVolumeThreshold ≤ (r.linesChanged : ℚ) then
        "hotspot"
      else if (churnMaxCommits evs lim : ℚ) * HotspotFrequencyThreshold ≤ (r.commitCount : ℚ) then
        "frequent"
      else if (churnMaxLines evs lim : ℚ) * HotspotVolumeThreshold ≤ (r.linesChanged : ℚ) then
        "massive"
      else "stable") ∧
    (r.commitCount = churnMaxCommits evs lim ∧ r.linesChanged = churnMaxLines evs lim →
      categorizeFile r.commitCount r.linesChanged
        (churnMaxCommits evs lim) (churnMaxLines evs lim) = "hotspot") := by
  have hpos : 1 ≤ r.commitCount :=
    churnRows_commitCount_pos evs r (churnQueryRows_subset evs lim r hr)
  have hmcpos : churnMaxCommits evs lim ≠ 0 := by
    have := mem_le_maxCommitsOf _ r hr
    unfold churnMaxCommits
    omega
  refine ⟨?_, ?_, ?_⟩
  · unfold getHighChurnFiles churnMaxCommits churnMaxLines
    rw [List.map_map]
    rfl
  · unfold categorizeFile
    rw [if_neg hmcpos]
  · rintro ⟨h1, h2⟩
    unfold categorizeFile
    rw [if_neg hmcpos]
    have hfreq : (churnMaxCommits evs lim : ℚ) * HotspotFrequencyThreshold ≤
        (r.commitCount : ℚ) := by
      rw [h1]
      unfold HotspotFrequencyThreshold
      have : (0 : ℚ) ≤ (churnMaxCommits evs lim : ℚ) := Nat.cast_nonneg _
      nlinarith
    have hvol : (churnMaxLines evs lim : ℚ) * HotspotVolumeThreshold ≤
        (r.linesChanged : ℚ) := by
      rw [h2]
      unfold HotspotVolumeThreshold
      have : (0 : ℚ) ≤ (churnMaxLines evs lim : ℚ) := Nat.cast_nonneg _
      nlinarith
    rw [if_pos ⟨hfreq, hvol⟩]

/-- C4 witness: instantiation at a one-event repository, whose single row
attains both maxima and is categorized hotspot. -/
theorem churn_category_priority_witness :
    (⟨"f", 1, 3, 0⟩ : FileChurnRow) ∈ churnQueryRows [⟨"f", "h", 1, 2, 0⟩] 1 ∧
    categorizeFile 1 3 (churnMaxCommits [⟨"f", "h", 1, 2, 0⟩] 1)
      (churnMaxLines [⟨"f", "h", 1, 2, 0⟩] 1) = "hotspot" := by
  have hmem : (⟨"f", 1, 3, 0⟩ : FileChurnRow) ∈ churnQueryRows [⟨"f", "h", 1, 2, 0⟩] 1 := by
    decide
  have h := churn_category_priority [⟨"f", "h", 1, 2, 0⟩] 1 ⟨"f", 1, 3, 0⟩ hmem
  exact ⟨hmem, h.2.2 ⟨by decide, by decide⟩⟩

/-- C10: `GetHighChurnFiles` binds the SQL `LIMIT` directly to the given
`Limit`, so the zero value returns an empty result list; the
`DefaultChurnLimit` constant of 10 exists but is never substituted. -/
theorem churn_zero_limit_empty (evs : List ChurnEvent) :
    getHighChurnFiles evs 0 = [] ∧ DefaultChurnLimit = 10 := by
  constructor
  · unfold getHighChurnFiles churnQueryRows
    simp
  · rfl

/-! ## C1, C2, C6 — bus factor -/

theorem busLoop_eq_consumedSpec (t : ℚ) (ps : List ℚ) (bf : Nat) (cum : ℚ) :
    busLoop t ps bf cum = bf + consumedSpec (t - cum) ps := by
  induction ps generalizing bf cum with
  | nil => simp [busLoop, consumedSpec]
  | cons p ps ih =>
    simp only [busLoop, consumedSpec]
    by_cases h : t ≤ cum + p
    · rw [if_pos h, if_pos (by linarith)]
    · rw [if_neg h, if_neg (by intro hc; exact h (by linarith)), ih]
      have he : t - cum - p = t - (cum + p) := by ring
      rw [← he]
      omega

theorem consumedSpec_le_length (t : ℚ) (ps : List ℚ) : consumedSpec t ps ≤ ps.length := by
  induction ps generalizing t with
  | nil => simp [consumedSpec]
  | cons p ps ih =>
    simp only [consumedSpec, List.length_cons]
    split
    · omega
    · have := ih (t - p)
      omega

theorem consumedSpec_pos (t p : ℚ) (ps : List ℚ) : 1 ≤ consumedSpec t (p :: ps) := by
  simp only [consumedSpec]
  split <;> omega

theorem consumedSpec_reaches (t : ℚ) (ps : List ℚ) :
    t ≤ (ps.take (consumedSpec t ps)).sum ∨ consumedSpec t ps = ps.length := by
  induction ps generalizing t with
  | nil => exact Or.inr rfl
  | cons p ps ih =>
    simp only [consumedSpec]
    by_cases h : t ≤ p
    · left
      rw [if_pos h]
      simpa using h
    · rw [if_neg h]
      rcases ih (t - p) with h1 | h1
      · left
        rw [Nat.add_comm 1 (consumedSpec (t - p) ps), List.take_succ_cons, List.sum_cons]
        linarith
      · right
        rw [h1, List.length_cons]
        omega

theorem consumedSpec_min (t : ℚ) (ps : List ℚ) (ht : 0 < t) :
    ∀ j < consumedSpec t ps, (ps.take j).sum < t := by
  induction ps generalizing t with
  | nil => intro j hj; simp [consumedSpec] at hj
  | cons p ps ih =>
    intro j hj
    simp only [consumedSpec] at hj
    by_cases h : t ≤ p
    · rw [if_pos h] at hj
      have hj0 : j = 0 := by omega
      subst hj0
      simpa using ht
    · rw [if_neg h] at hj
      cases j with
      | zero => simpa using ht
      | succ j =>
        rw [List.take_succ_cons, List.sum_cons]
        push_neg at h
        have := ih (t - p) (by linarith) j (by omega)
        linarith

theorem sortByOwnedDesc_sorted (cs : List ContributorOwnership) :
    (sortByOwnedDesc cs).Sorted byOwnedDesc := by
  unfold sortByOwnedDesc
  haveI : IsTotal ContributorOwnership byOwnedDesc :=
    ⟨fun a b => le_total b.filesOwned a.filesOwned⟩
  haveI : IsTrans ContributorOwnership byOwnedDesc :=
    ⟨fun _ _ _ h1 h2 => le_trans h2 h1⟩
  exact List.sorted_insertionSort byOwnedDesc cs

theorem sortedContributors_length (evs : List CFEvent) :
    (sortedContributors evs).length = (rawOf evs).length := by
  unfold sortedContributors sortByOwnedDesc withPcts
  rw [List.length_insertionSort, List.length_map]

theorem rawOf_ne_nil (evs : List CFEvent) (h : totalOwned evs ≠ 0) :
    (rawOf evs).length ≠ 0 := by
  intro hlen
  apply h
  unfold totalOwned
  rw [List.length_eq_zero.mp hlen]
  rfl

theorem calculateBusFactor_of_pos (t : ℚ) (evs : List CFEvent) (h : totalOwned evs ≠ 0) :
    calculateBusFactor t evs =
      ⟨busLoop (t * 100) ((sortedContributors evs).map (·.ownershipPct)) 0 0, t,
        totalOwned evs, sortedContributors evs,
        riskOf (busLoop (t * 100) ((sortedContributors evs).map (·.ownershipPct)) 0 0)⟩ := by
  unfold calculateBusFactor
  rw [if_neg h]

theorem busFactor_projections (t : ℚ) (evs : List CFEvent) (h : totalOwned evs ≠ 0) :
    (calculateBusFactor t evs).busFactor =
      busLoop (t * 100) ((sortedContributors evs).map (·.ownershipPct)) 0 0 ∧
    (calculateBusFactor t evs).riskLevel =
      riskOf ((calculateBusFactor t evs).busFactor) ∧
    (calculateBusFactor t evs).topContributors = sortedContributors evs ∧
    (calculateBusFactor t evs).totalFiles = totalOwned evs := by
  rw [calculateBusFactor_of_pos t evs h]
  exact ⟨rfl, rfl, rfl, rfl⟩

theorem riskOf_iff (bf : Nat) (h : 1 ≤ bf) :
    (riskOf bf = "high" ↔ bf = 1) ∧
    (riskOf bf = "medium" ↔ bf = 2 ∨ bf = 3) ∧
    (riskOf bf = "low" ↔ 4 ≤ bf) := by
  unfold riskOf
  split_ifs with h1 h2
  · exact ⟨⟨fun _ => h1, fun _ => rfl⟩,
      ⟨fun hs => absurd hs (by decide), fun hd => by omega⟩,
      ⟨fun hs => absurd hs (by decide), fun hd => by omega⟩⟩
  · exact ⟨⟨fun hs => absurd hs (by decide), fun hd => by omega⟩,
      ⟨fun _ => by omega, fun _ => rfl⟩,
      ⟨fun hs => absurd hs (by decide), fun hd => by omega⟩⟩
  · exact ⟨⟨fun hs => absurd hs (by decide), fun hd => by omega⟩,
      ⟨fun hs => absurd hs (by decide), fun hd => by omega⟩,
      ⟨fun _ => by omega, fun _ => rfl⟩⟩

/-- C1: `CalculateBusFactor` sorts the contributors by files owned
descending, accumulates ownership percentages until the cumulative
percentage reaches `threshold·100` and returns the number of contributors
consumed (`consumedSpec`, also characterised as the least prefix of the
sorted percentage list whose sum reaches the threshold, or all of them);
risk is "high" iff the bus factor is 1, "medium" iff it is 2 or 3, "low"
otherwise, and a repository with zero owned files yields bus factor 0
with risk "unknown".  The default threshold of the HTTP layer is 50 %. -/
theorem bus_factor_algorithm (t : ℚ) (evs : List CFEvent) (ht : 0 < t) :
    defaultBusFactorThreshold = 1 / 2 ∧
    (totalOwned evs = 0 → calculateBusFactor t evs = ⟨0, t, 0, [], "unknown"⟩) ∧
    (totalOwned evs ≠ 0 →
      (calculateBusFactor t evs).topContributors.Sorted byOwnedDesc ∧
      (calculateBusFactor t evs).busFactor =
        consumedSpec (t * 100)
          ((calculateBusFactor t evs).topContributors.map (·.ownershipPct)) ∧
      (t * 100 ≤
          ((((calculateBusFactor t evs).topContributors.map (·.ownershipPct)).take
            (calculateBusFactor t evs).busFactor).sum) ∨
        (calculateBusFactor t evs).busFactor =
          (calculateBusFactor t evs).topContributors.length) ∧
      (∀ j < (calculateBusFactor t evs).busFactor,
        ((((calculateBusFactor t evs).topContributors.map (·.ownershipPct)).take j).sum) <
          t * 100) ∧
      ((calculateBusFactor t evs).riskLevel = "high" ↔
        (calculateBusFactor t evs).busFactor = 1) ∧
      ((calculateBusFactor t evs).riskLevel = "medium" ↔
        ((calculateBusFactor t evs).busFactor = 2 ∨
          (calculateBusFactor t evs).busFactor = 3)) ∧
      ((calculateBusFactor t evs).riskLevel = "low" ↔
        4 ≤ (calculateBusFactor t evs).busFactor)) := by
  refine ⟨rfl, ?_, ?_⟩
  · intro h
    unfold calculateBusFactor
    rw [if_pos h]
  · intro h
    obtain ⟨hbf, hrisk, htop, -⟩ := busFactor_projections t evs h
    have hloop : (calculateBusFactor t evs).busFactor =
        consumedSpec (t * 100)
          ((calculateBusFactor t evs).topContributors.map (·.ownershipPct)) := by
      rw [hbf, htop, busLoop_eq_consumedSpec]
      norm_num
    have hlen : ((calculateBusFactor t evs).topContributors.map (·.ownershipPct)).length ≠ 0 := by
      rw [htop, List.length_map, sortedContributors_length]
      exact rawOf_ne_nil evs h
    have hbfpos : 1 ≤ (calculateBusFactor t evs).busFactor := by
      rw [hloop]
      rcases hp : (calculateBusFactor t evs).topContributors.map (·.ownershipPct)
        with _ | ⟨p, ps⟩
      · rw [hp] at hlen
        simp at hlen
      · rw [hp]
        exact consumedSpec_pos _ p ps
    refine ⟨?_, hloop, ?_, ?_, ?_⟩
    · rw [htop]
      exact sortByOwnedDesc_sorted _
    · rcases consumedSpec_reaches (t * 100)
        ((calculateBusFactor t evs).topContributors.map (·.ownershipPct)) with h1 | h1
      · left
        rw [hloop]
        exact h1
      · right
        rw [hloop, h1, List.length_map]
    · intro j hj
      rw [hloop] at hj
      exact consumedSpec_min (t * 100) _ (by linarith) j hj
    · rw [hrisk]
      exact riskOf_iff _ hbfpos

/-- C1 witness: instantiation at a single-owner repository with
threshold 1. -/
theorem bus_factor_algorithm_witness :
    defaultBusFactorThreshold = 1 / 2 ∧
    ((calculateBusFactor 1 [⟨"f", "a", "A", 5⟩]).riskLevel = "high" ↔
      (calculateBusFactor 1 [⟨"f", "a", "A", 5⟩]).busFactor = 1) ∧
    (calculateBusFactor 1 [⟨"f", "a", "A", 5⟩]).busFactor =
      consumedSpec (1 * 100)
        ((calculateBusFactor 1 [⟨"f", "a", "A", 5⟩]).topContributors.map (·.ownershipPct)) := by
  have h := bus_factor_algorithm 1 [⟨"f", "a", "A", 5⟩] one_pos
  have h2 := h.2.2 (by decide)
  exact ⟨h.1, h2.2.2.2.2.1, h2.2.1⟩

theorem bestRowFrom_spec (l : List FCRow) (b : FCRow) :
    (bestRowFrom b l ∈ l ∨ bestRowFrom b l = b) ∧ b.total ≤ (bestRowFrom b l).total ∧
      ∀ q ∈ l, q.total ≤ (bestRowFrom b l).total := by
  induction l generalizing b with
  | nil => exact ⟨Or.inr rfl, le_refl _, by simp⟩
  | cons x l ih =>
    by_cases hx : b.total < x.total
    · simp only [bestRowFrom, if_pos hx]
      rcases ih x with ⟨hmem, hle, hall⟩
      refine ⟨?_, le_trans hx.le hle, ?_⟩
      · rcases hmem with hm | hm
        · exact Or.inl (List.mem_cons_of_mem _ hm)
        · exact Or.inl (by rw [hm]; exact List.mem_cons_self _ _)
      · intro q hq
        rcases List.mem_cons.mp hq with rfl | hq
        · exact hle
        · exact hall q hq
    · simp only [bestRowFrom, if_neg hx]
      rcases ih b with ⟨hmem, hle, hall⟩
      push_neg at hx
      refine ⟨?_, hle, ?_⟩
      · rcases hmem with hm | hm
        · exact Or.inl (List.mem_cons_of_mem _ hm)
        · exact Or.inr hm
      · intro q hq
        rcases List.mem_cons.mp hq with rfl | hq
        · exact le_trans hx hle
        · exact hall q hq

theorem bestRow_spec (rows : List FCRow) :
    (bestRow rows = none → rows = []) ∧
    ∀ r, bestRow rows = some r → r ∈ rows ∧ ∀ q ∈ rows, q.total ≤ r.total := by
  cases rows with
  | nil => exact ⟨fun _ => rfl, fun r hr => by simp [bestRow] at hr⟩
  | cons x l =>
    refine ⟨fun hc => by simp [bestRow] at hc, ?_⟩
    intro r hr
    have hr2 : bestRowFrom x l = r := by
      have hsome : some (bestRowFrom x l) = some r := hr
      injection hsome
    rcases bestRowFrom_spec l x with ⟨hmem, hle, hall⟩
    rw [hr2] at hmem hle hall
    constructor
    · rcases hmem with hm | hm
      · exact List.mem_cons_of_mem _ hm
      · rw [hm]
        exact List.mem_cons_self _ _
    · intro q hq
      rcases List.mem_cons.mp hq with rfl | hq
      · exact hle
      · exact hall q hq

theorem ownerFor_spec (rows : List FCRow) (p : String) :
    (∀ r, ownerFor rows p = some r →
      r.path = p ∧ 0 < r.total ∧ ∀ q ∈ rows, q.path = p → q.total ≤ r.total) ∧
    (ownerFor rows p = none → ∀ q ∈ rows, q.path = p → q.total ≤ 0) := by
  constructor
  · intro r hr
    have hspec := (bestRow_spec
      (rows.filter fun r => decide (r.path = p ∧ 0 < r.total))).2 r hr
    rcases hspec with ⟨hmem, hall⟩
    have hf := List.mem_filter.mp hmem
    have hcond : r.path = p ∧ 0 < r.total := of_decide_eq_true hf.2
    refine ⟨hcond.1, hcond.2, ?_⟩
    intro q hq hqp
    by_cases hq0 : 0 < q.total
    · exact hall q (List.mem_filter.mpr ⟨hq, decide_eq_true ⟨hqp, hq0⟩⟩)
    · push_neg at hq0
      exact le_trans hq0 (le_of_lt hcond.2)
  · intro hnone q hq hqp
    have hempty := (bestRow_spec
      (rows.filter fun r => decide (r.path = p ∧ 0 < r.total))).1 hnone
    by_contra hq0
    push_neg at hq0
    have : q ∈ rows.filter fun r => decide (r.path = p ∧ 0 < r.total) :=
      List.mem_filter.mpr ⟨hq, decide_eq_true ⟨hqp, hq0⟩⟩
    rw [hempty] at this
    exact absurd this (List.not_mem_nil q)

/-- C2, counterexample: two contributors tie on the maximal per-file
cumulative additions (5 each), yet the file is assigned an owner (the
first tied row in scan order) and counted among owned files, so
ownership is not restricted to strictly largest contributions. -/
theorem ownership_tie_counterexample :
    sumAdds [⟨"f", "a", "A", 5⟩, ⟨"f", "b", "B", 5⟩] ("f", "a", "A") =
      sumAdds [⟨"f", "a", "A", 5⟩, ⟨"f", "b", "B", 5⟩] ("f", "b", "B") ∧
    ownerFor (fileContributions [⟨"f", "a", "A", 5⟩, ⟨"f", "b", "B", 5⟩]) "f" =
      some ⟨"f", "a", "A", 5⟩ ∧
    (calculateBusFactor 1 [⟨"f", "a", "A", 5⟩, ⟨"f", "b", "B", 5⟩]).totalFiles = 1 := by
  decide

/-- C2, amended: a file is assigned an owner exactly when some contributor
has positive cumulative additions on it; the owner is a contributor
attaining the maximum cumulative additions (on ties, which row is kept is
an engine-order artefact, not a strictness requirement), and a file whose
every contributor has zero or negative cumulative additions has no owner
and is excluded from ownership counts. -/
theorem ownership_rule (evs : List CFEvent) (p : String) :
    (∀ r, ownerFor (fileContributions evs) p = some r →
      r.path = p ∧ 0 < r.total ∧
      ∀ q ∈ fileContributions evs, q.path = p → q.total ≤ r.total) ∧
    (ownerFor (fileContributions evs) p = none →
      (∀ q ∈ fileContributions evs, q.path = p → q.total ≤ 0) ∧
      ∀ r ∈ ownersOf evs, r.path ≠ p) := by
  constructor
  · exact (ownerFor_spec (fileContributions evs) p).1
  · intro hnone
    refine ⟨(ownerFor_spec (fileContributions evs) p).2 hnone, ?_⟩
    intro r hr hrp
    unfold ownersOf fileOwners at hr
    rcases List.mem_filterMap.mp hr with ⟨q, _, hq⟩
    have hqp : r.path = q := ((ownerFor_spec (fileContributions evs) q).1 r hq).1
    have hpq : p = q := by rw [← hrp, hqp]
    rw [hpq] at hnone
    rw [hnone] at hq
    exact Option.noConfusion hq

/-- C2 witness: instantiation of the amended ownership rule at a
two-contributor file with a strict maximum. -/
theorem ownership_rule_witness :
    ownerFor (fileContributions [⟨"f", "a", "A", 7⟩, ⟨"f", "b", "B", 3⟩]) "f" =
      some ⟨"f", "a", "A", 7⟩ ∧
    (⟨"f", "a", "A", 7⟩ : FCRow).path = "f" ∧ (0 : Int) < (⟨"f", "a", "A", 7⟩ : FCRow).total ∧
    ∀ q ∈ fileContributions [⟨"f", "a", "A", 7⟩, ⟨"f", "b", "B", 3⟩],
      q.path = "f" → q.total ≤ (⟨"f", "a", "A", 7⟩ : FCRow).total := by
  have hsome : ownerFor (fileContributions [⟨"f", "a", "A", 7⟩, ⟨"f", "b", "B", 3⟩]) "f" =
      some ⟨"f", "a", "A", 7⟩ := by decide
  have h := (ownership_rule [⟨"f", "a", "A", 7⟩, ⟨"f", "b", "B", 3⟩] "f").1
    ⟨"f", "a", "A", 7⟩ hsome
  exact ⟨hsome, h.1, h.2.1, h.2.2⟩

theorem ownersOf_subset (evs : List CFEvent) :
    ∀ r ∈ ownersOf evs, r ∈ fileContributions evs := by
  intro r hr
  unfold ownersOf fileOwners at hr
  rcases List.mem_filterMap.mp hr with ⟨p, _, hp⟩
  have := (bestRow_spec
    ((fileContributions evs).filter fun r => decide (r.path = p ∧ 0 < r.total))).2 r hp
  exact List.mem_of_mem_filter this.1

theorem fileContributions_ident_mem (evs : List CFEvent) (r : FCRow)
    (hr : r ∈ fileContributions evs) : (r.email, r.name) ∈ eventIdents evs := by
  unfold fileContributions at hr
  rcases List.mem_map.mp hr with ⟨k, hk, rfl⟩
  unfold contribKeys at hk
  rcases List.mem_map.mp (List.mem_dedup.mp hk) with ⟨e, he, rfl⟩
  unfold eventIdents
  exact List.mem_dedup.mpr (List.mem_map.mpr ⟨e, he, rfl⟩)

theorem ownerIdents_subset_eventIdents (evs : List CFEvent) :
    ownerIdents (ownersOf evs) ⊆ eventIdents evs := by
  intro x hx
  unfold ownerIdents at hx
  rcases List.mem_map.mp (List.mem_dedup.mp hx) with ⟨r, hr, rfl⟩
  exact fileContributions_ident_mem evs r (ownersOf_subset evs r hr)

theorem ownerIdents_length_le (evs : List CFEvent) :
    (ownerIdents (ownersOf evs)).length ≤ (eventIdents evs).length :=
  (List.subperm_of_subset (List.nodup_dedup _)
    (ownerIdents_subset_eventIdents evs)).length_le

theorem busFactor_le_rawOf (t : ℚ) (evs : List CFEvent) :
    (calculateBusFactor t evs).busFactor ≤ (rawOf evs).length := by
  by_cases h : totalOwned evs = 0
  · unfold calculateBusFactor
    rw [if_pos h]
    exact Nat.zero_le _
  · obtain ⟨hbf, -, -, -⟩ := busFactor_projections t evs h
    rw [hbf, busLoop_eq_consumedSpec]
    have := consumedSpec_le_length (t * 100 - 0)
      ((sortedContributors evs).map (·.ownershipPct))
    rw [List.length_map, sortedContributors_length] at this
    omega

theorem rawOf_length_eq (evs : List CFEvent) :
    (rawOf evs).length = (ownerIdents (ownersOf evs)).length := by
  unfold rawOf rawContributors
  rw [List.length_map]

/-- C6, counterexample: a repository whose single contributor made only
zero-addition changes owns no file, so `CalculateBusFactor` returns bus
factor 0 with risk "unknown", not bus factor 1 with risk "high". -/
theorem single_contributor_zero_files_counterexample :
    eventIdents [⟨"f", "a", "A", 0⟩] = [("a", "A")] ∧
    (calculateBusFactor defaultBusFactorThreshold [⟨"f", "a", "A", 0⟩]).busFactor = 0 ∧
    (calculateBusFactor defaultBusFactorThreshold [⟨"f", "a", "A", 0⟩]).riskLevel =
      "unknown" := by
  decide

/-- C6, amended: the bus factor always lies between 0 and the number of
distinct contributors inclusive; a repository with exactly one
contributor yields bus factor 1 with risk "high" whenever at least one
file is owned, and bus factor 0 with risk "unknown" when no file is
owned. -/
theorem bus_factor_bounds (t : ℚ) (evs : List CFEvent) (idt : String × String) :
    (calculateBusFactor t evs).busFactor ≤ (eventIdents evs).length ∧
    (eventIdents evs = [idt] → totalOwned evs ≠ 0 →
      (calculateBusFactor t evs).busFactor = 1 ∧
      (calculateBusFactor t evs).riskLevel = "high") ∧
    (totalOwned evs = 0 →
      (calculateBusFactor t evs).busFactor = 0 ∧
      (calculateBusFactor t evs).riskLevel = "unknown") := by
  have hle : (calculateBusFactor t evs).busFactor ≤ (eventIdents evs).length := by
    calc (calculateBusFactor t evs).busFactor ≤ (rawOf evs).length :=
          busFactor_le_rawOf t evs
      _ = (ownerIdents (ownersOf evs)).length := rawOf_length_eq evs
      _ ≤ (eventIdents evs).length := ownerIdents_length_le evs
  refine ⟨hle, ?_, ?_⟩
  · intro hone h
    obtain ⟨hbf, hrisk, htop, -⟩ := busFactor_projections t evs h
    have hpos : 1 ≤ (calculateBusFactor t evs).busFactor := by
      rw [hbf, busLoop_eq_consumedSpec]
      rcases hp : (sortedContributors evs).map (·.ownershipPct) with _ | ⟨p, ps⟩
      · exfalso
        have hlen := rawOf_ne_nil evs h
        rw [← sortedContributors_length] at hlen
        have hzero : ((sortedContributors evs).map (·.ownershipPct)).length = 0 := by
          rw [hp]
          rfl
        rw [List.length_map] at hzero
        exact hlen hzero
      · rw [hp]
        have := consumedSpec_pos (t * 100 - 0) p ps
        omega
    have hone1 : (calculateBusFactor t evs).busFactor = 1 := by
      have hb := hle
      rw [hone] at hb
      simp only [List.length_singleton] at hb
      omega
    refine ⟨hone1, ?_⟩
    rw [hrisk, hone1]
    rfl
  · intro h
    unfold calculateBusFactor
    rw [if_pos h]
    exact ⟨rfl, rfl⟩

/-- C6 witness: instantiation at a single-contributor repository with one
owned file, and at one with no owned file. -/
theorem bus_factor_bounds_witness :
    (calculateBusFactor 1 [⟨"f", "a", "A", 5⟩]).busFactor ≤
      (eventIdents [⟨"f", "a", "A", 5⟩]).length ∧
    (calculateBusFactor 1 [⟨"f", "a", "A", 5⟩]).busFactor = 1 ∧
    (calculateBusFactor 1 [⟨"f", "a", "A", 5⟩]).riskLevel = "high" := by
  have h := bus_factor_bounds 1 [⟨"f", "a", "A", 5⟩] ("a", "A")
  have h2 := h.2.1 (by decide) (by decide)
  exact ⟨h.1, h2.1, h2.2⟩

end RepoStats
